import Mathlib

/-!
# Task manager: shallow embedding and verification

A shallow embedding of the authorization, sharing, visibility and
deadline-scan logic of the task-manager application
(`src/apps/tasks/permissions.py`, `src/apps/tasks/models.py`,
`src/apps/tasks/tasks.py`, `src/apps/tasks/api/views.py`,
`src/apps/tasks/api/serializers.py`, `src/apps/users/...`), together with
theorems settling the specification's testable properties.

Modelling conventions:
* Instants (`DateTimeField` values) are natural numbers counting
  microseconds since the epoch, matching Python `datetime` resolution.
* Database tables are lists of rows; Django `QuerySet.get` on a unique key
  is `List.find?`; the `unique_together` constraint is a `Pairwise`
  invariant proved over all reachable states.
* Model instances compare by primary key, as Django model `==` does, so
  users and tasks are referenced by numeric ids.
* Emails are ASCII strings; Python `str.lower()` is modelled by `lowerStr`.
-/

namespace TaskManager

/-- Microseconds in one hour. -/
def usPerHour : Nat := 3600 * 1000000

/-- Microseconds in one (UTC) calendar day. -/
def usPerDay : Nat := 24 * usPerHour

theorem usPerHour_eq : usPerHour = 3600000000 := by
  norm_num [usPerHour]

theorem usPerHour_pos : 0 < usPerHour := by
  norm_num [usPerHour]

/-- `Task.Status` from `src/apps/tasks/models.py`. -/
inductive Status where
  | new
  | in_progress
  | done
deriving DecidableEq, Repr

/-- `Task.Priority` from `src/apps/tasks/models.py`. -/
inductive Priority where
  | low
  | medium
  | high
deriving DecidableEq, Repr

/-- `TaskShare.Permission` from `src/apps/tasks/models.py`. -/
inductive SharePermission where
  | view
  | edit
deriving DecidableEq, Repr

/-- A row of the `users` table (`src/apps/users/models.py`).  The model
extends Django's `AbstractBaseUser`, which supplies `is_active` as a class
attribute that is `True`; registration never sets it otherwise, so we carry
the flag explicitly and prove it is `true` in every reachable store. -/
structure User where
  id : Nat
  email : String
  is_active : Bool
deriving DecidableEq, Repr

/-- A row of the `tasks` table (`src/apps/tasks/models.py`): title,
optional description, status, priority, optional deadline, owner (user id,
`ForeignKey`), and the `TimestampMixin` creation instant. -/
structure Task where
  id : Nat
  title : String
  description : Option String
  status : Status
  priority : Priority
  deadline : Option Nat
  owner : Nat
  created_at : Nat
deriving DecidableEq, Repr

/-- A row of the `task_shares` table (`src/apps/tasks/models.py`): task id,
grantee user id (`shared_with`), permission, grant instant. -/
structure TaskShare where
  task : Nat
  shared_with : Nat
  permission : SharePermission
  shared_at : Nat
deriving DecidableEq, Repr

/-- HTTP request method, as seen by DRF permission classes. -/
inductive Method where
  | get
  | head
  | options
  | post
  | put
  | patch
  | delete
deriving DecidableEq, Repr

/-- `rest_framework.permissions.SAFE_METHODS = ('GET', 'HEAD', 'OPTIONS')`. -/
def Method.isSafe : Method → Bool
  | .get => true
  | .head => true
  | .options => true
  | _ => false

/-- `TaskShare.objects.get(task=obj, shared_with=request.user)`: the lookup
on the `unique_together` key (`task`, `shared_with`).  Under the uniqueness
invariant at most one row matches, so `List.find?` is the faithful model. -/
def findShare (shares : List TaskShare) (taskId userId : Nat) : Option TaskShare :=
  shares.find? (fun s => s.task == taskId && s.shared_with == userId)

/-- `IsTaskOwnerOrSharedWith.has_object_permission`
(`src/apps/tasks/permissions.py` lines 10-24): owner is always allowed;
otherwise look up the share for (task, requester) — if none, deny; if one
exists, allow safe methods, and allow unsafe methods only for `edit`. -/
def isTaskOwnerOrSharedWith (shares : List TaskShare) (method : Method)
    (userId : Nat) (t : Task) : Bool :=
  if t.owner == userId then
    true
  else
    match findShare shares t.id userId with
    | some share =>
        if method.isSafe then true
        else share.permission == SharePermission.edit
    | none => false

/-- `CanShareTask.has_object_permission`
(`src/apps/tasks/permissions.py` lines 27-29). -/
def canShareTask (userId : Nat) (t : Task) : Bool :=
  t.owner == userId

/-- Predicate: a share row granting `userId` access to task `t` exists. -/
def shareExists (shares : List TaskShare) (taskId userId : Nat) : Prop :=
  ∃ s ∈ shares, s.task = taskId ∧ s.shared_with = userId

instance (shares : List TaskShare) (taskId userId : Nat) :
    Decidable (shareExists shares taskId userId) := by
  unfold shareExists
  infer_instance

theorem findShare_isSome_iff (shares : List TaskShare) (taskId userId : Nat) :
    (findShare shares taskId userId).isSome ↔ shareExists shares taskId userId := by
  unfold findShare shareExists
  rw [List.find?_isSome]
  constructor
  · rintro ⟨s, hs, hp⟩
    simp only [Bool.and_eq_true, beq_iff_eq] at hp
    exact ⟨s, hs, hp.1, hp.2⟩
  · rintro ⟨s, hs, h1, h2⟩
    exact ⟨s, hs, by simp [h1, h2]⟩

theorem findShare_eq_none_iff (shares : List TaskShare) (taskId userId : Nat) :
    findShare shares taskId userId = none ↔ ¬ shareExists shares taskId userId := by
  rw [← findShare_isSome_iff, Option.isSome_iff_ne_none]
  tauto

/-- C1: per-object view permission — granted on safe requests iff the
requester owns the task or a share row for (task, requester) exists, and
denied on every request when the requester is neither owner nor grantee.
Quantifying over the share list covers every reachable share state, since
`has_object_permission` re-queries the table on every call. -/
theorem view_permission_iff_owner_or_shared
    (shares : List TaskShare) (m : Method) (u : Nat) (t : Task) :
    (m.isSafe = true →
      (isTaskOwnerOrSharedWith shares m u t = true ↔
        t.owner = u ∨ shareExists shares t.id u)) ∧
    (¬ (t.owner = u ∨ shareExists shares t.id u) →
      isTaskOwnerOrSharedWith shares m u t = false) := by
  constructor
  · intro hsafe
    unfold isTaskOwnerOrSharedWith
    by_cases how : t.owner = u
    · simp [how]
    · simp only [beq_iff_eq, how, if_false]
      cases hfs : findShare shares t.id u with
      | some s =>
          have : shareExists shares t.id u := by
            rw [← findShare_isSome_iff, hfs]; rfl
          simp [hsafe, this, how]
      | none =>
          have : ¬ shareExists shares t.id u := (findShare_eq_none_iff _ _ _).mp hfs
          simp [how, this]
  · intro hnone
    push_neg at hnone
    obtain ⟨how, hsh⟩ := hnone
    unfold isTaskOwnerOrSharedWith
    have hfs : findShare shares t.id u = none := (findShare_eq_none_iff _ _ _).mpr hsh
    simp [how, hfs]

/-- Witness for C1 at a concrete state: user 2 holds a view share on task 1
owned by user 1, so a GET is allowed; user 3 holds nothing, so even a GET
is denied. -/
theorem view_permission_iff_owner_or_shared_witness :
    isTaskOwnerOrSharedWith
      [⟨1, 2, SharePermission.view, 0⟩] Method.get 2
      ⟨1, "t", none, Status.new, Priority.medium, none, 1, 0⟩ = true ∧
    isTaskOwnerOrSharedWith
      [⟨1, 2, SharePermission.view, 0⟩] Method.get 3
      ⟨1, "t", none, Status.new, Priority.medium, none, 1, 0⟩ = false := by
  constructor
  · exact ((view_permission_iff_owner_or_shared
      [⟨1, 2, SharePermission.view, 0⟩] Method.get 2
      ⟨1, "t", none, Status.new, Priority.medium, none, 1, 0⟩).1 rfl).mpr
      (Or.inr ⟨⟨1, 2, SharePermission.view, 0⟩, by simp, rfl, rfl⟩)
  · exact (view_permission_iff_owner_or_shared
      [⟨1, 2, SharePermission.view, 0⟩] Method.get 3
      ⟨1, "t", none, Status.new, Priority.medium, none, 1, 0⟩).2
      (by rintro (h | ⟨s, hs, h1, h2⟩) <;> simp_all [shareExists])

/-! ## Endpoint authorization decisions (`src/apps/tasks/api/views.py`)

Each CRUD endpoint of `TaskViewSet` runs under
`permission_classes = [IsAuthenticated, IsTaskOwnerOrSharedWith]`; the
`share`/`shares`/`revoke_share` actions override this with
`[IsAuthenticated, CanShareTask]`.  `destroy` additionally re-checks
ownership inside the view body and returns 403 otherwise.  The functions
below give the resulting allow/deny decision for an authenticated
requester, per endpoint. -/

/-- `update` / `partial_update`: gated only by the object permission class
(with method PUT / PATCH, both unsafe). -/
def updateAllowed (shares : List TaskShare) (userId : Nat) (t : Task) : Bool :=
  isTaskOwnerOrSharedWith shares Method.put userId t

/-- `partial_update` uses PATCH; the decision function is the same class. -/
def partialUpdateAllowed (shares : List TaskShare) (userId : Nat) (t : Task) : Bool :=
  isTaskOwnerOrSharedWith shares Method.patch userId t

/-- `destroy`: the object permission class runs with method DELETE, and the
view body then rejects any requester that is not the owner
(`views.py` lines 271-280). -/
def destroyAllowed (shares : List TaskShare) (userId : Nat) (t : Task) : Bool :=
  isTaskOwnerOrSharedWith shares Method.delete userId t && (t.owner == userId)

/-- `share` action: object permission is `CanShareTask` (owner only). -/
def shareActionAllowed (userId : Nat) (t : Task) : Bool :=
  canShareTask userId t

/-- `shares` (list shares) action: object permission is `CanShareTask`. -/
def listSharesAllowed (userId : Nat) (t : Task) : Bool :=
  canShareTask userId t

/-- `revoke_share` action: object permission is `CanShareTask`. -/
def revokeShareAllowed (userId : Nat) (t : Task) : Bool :=
  canShareTask userId t

/-- C4: a grantee holding an `edit` share on a task they do not own may
update the task (PUT and PATCH), but may not delete it and may not use any
share-management endpoint (share, list shares, revoke share). -/
theorem edit_grantee_can_update_but_not_delete_or_manage_shares
    (shares : List TaskShare) (g : Nat) (t : Task) (s : TaskShare)
    (hfind : findShare shares t.id g = some s)
    (hedit : s.permission = SharePermission.edit)
    (hne : t.owner ≠ g) :
    updateAllowed shares g t = true ∧
    partialUpdateAllowed shares g t = true ∧
    destroyAllowed shares g t = false ∧
    shareActionAllowed g t = false ∧
    listSharesAllowed g t = false ∧
    revokeShareAllowed g t = false := by
  refine ⟨?_, ?_, ?_, ?_, ?_, ?_⟩
  · unfold updateAllowed isTaskOwnerOrSharedWith
    simp [hne, hfind, hedit, Method.isSafe]
  · unfold partialUpdateAllowed isTaskOwnerOrSharedWith
    simp [hne, hfind, hedit, Method.isSafe]
  · unfold destroyAllowed
    simp [hne]
  · unfold shareActionAllowed canShareTask
    simp [hne]
  · unfold listSharesAllowed canShareTask
    simp [hne]
  · unfold revokeShareAllowed canShareTask
    simp [hne]

/-- Witness for C4: user 2 holds an edit share on task 1 owned by user 1. -/
theorem edit_grantee_can_update_but_not_delete_or_manage_shares_witness :
    updateAllowed [⟨1, 2, SharePermission.edit, 5⟩] 2
      ⟨1, "t", none, Status.new, Priority.medium, none, 1, 0⟩ = true ∧
    destroyAllowed [⟨1, 2, SharePermission.edit, 5⟩] 2
      ⟨1, "t", none, Status.new, Priority.medium, none, 1, 0⟩ = false ∧
    shareActionAllowed 2
      ⟨1, "t", none, Status.new, Priority.medium, none, 1, 0⟩ = false := by
  have h := edit_grantee_can_update_but_not_delete_or_manage_shares
    [⟨1, 2, SharePermission.edit, 5⟩] 2
    ⟨1, "t", none, Status.new, Priority.medium, none, 1, 0⟩
    ⟨1, 2, SharePermission.edit, 5⟩ (by rfl) rfl (by decide)
  exact ⟨h.1, h.2.2.1, h.2.2.2.1⟩

/-! ## Deadline logic (`src/apps/tasks/models.py`, `src/apps/tasks/tasks.py`) -/

/-- `timedelta.total_seconds()` of a microsecond-resolution delta: the exact
number of seconds as a rational. -/
def totalSeconds (d : Int) : ℚ :=
  (d : ℚ) / 1000000

/-- Python `int(x)` on a rational: truncation toward zero. -/
def pythonInt (q : ℚ) : Int :=
  if 0 ≤ q then ⌊q⌋ else -⌊-q⌋

/-- `Task.is_due_soon(hours)` (`src/apps/tasks/models.py` lines 84-88):
with a deadline present (datetimes are always truthy) and status not Done,
test `0 < time_until_deadline.total_seconds() <= hours * 3600`. -/
def is_due_soon (t : Task) (now : Nat) (hours : Nat := 24) : Bool :=
  match t.deadline with
  | some dl =>
      if t.status ≠ Status.done then
        decide (0 < totalSeconds ((dl : Int) - (now : Int)) ∧
          totalSeconds ((dl : Int) - (now : Int)) ≤ ((hours : ℚ) * 3600))
      else false
  | none => false

theorem totalSeconds_bounds_iff (now dl hours : Nat) :
    (0 < totalSeconds ((dl : Int) - (now : Int)) ∧
      totalSeconds ((dl : Int) - (now : Int)) ≤ ((hours : ℚ) * 3600)) ↔
    (now < dl ∧ dl ≤ now + hours * usPerHour) := by
  unfold totalSeconds
  rw [lt_div_iff₀ (by norm_num : (0 : ℚ) < 1000000),
    div_le_iff₀ (by norm_num : (0 : ℚ) < 1000000)]
  rw [usPerHour_eq]
  constructor
  · rintro ⟨h1, h2⟩
    push_cast at h1 h2
    constructor
    · have : (now : ℚ) < (dl : ℚ) := by linarith
      exact_mod_cast this
    · have : (dl : ℚ) ≤ (now : ℚ) + (hours : ℚ) * 3600000000 := by linarith
      exact_mod_cast this
  · rintro ⟨h1, h2⟩
    have h1' : (now : ℚ) < (dl : ℚ) := by exact_mod_cast h1
    have h2' : (dl : ℚ) ≤ (now : ℚ) + (hours : ℚ) * 3600000000 := by exact_mod_cast h2
    constructor
    · push_cast
      linarith
    · push_cast
      linarith

/-- C9: `Task.is_due_soon(hours)` returns true iff the deadline is set,
the status is not Done, and the deadline lies strictly after `now` but at
most `hours * 3600` seconds after it; both boundaries behave as stated — a
deadline equal to the current instant is not due-soon, a deadline exactly
`hours * 3600` seconds away is; no deadline or status Done give false. -/
theorem is_due_soon_characterization (t : Task) (now hours : Nat) :
    (is_due_soon t now hours = true ↔
      ∃ dl, t.deadline = some dl ∧ t.status ≠ Status.done ∧
        now < dl ∧ dl ≤ now + hours * usPerHour) ∧
    (t.deadline = some now → is_due_soon t now hours = false) ∧
    (0 < hours → t.deadline = some (now + hours * usPerHour) →
      t.status ≠ Status.done → is_due_soon t now hours = true) ∧
    (t.deadline = none → is_due_soon t now hours = false) ∧
    (t.status = Status.done → is_due_soon t now hours = false) := by
  have core : is_due_soon t now hours = true ↔
      ∃ dl, t.deadline = some dl ∧ t.status ≠ Status.done ∧
        now < dl ∧ dl ≤ now + hours * usPerHour := by
    unfold is_due_soon
    cases hdl : t.deadline with
    | none => simp
    | some dl =>
        by_cases hst : t.status = Status.done
        · simp [hst]
        · simp only [hst, ne_eq, not_false_eq_true, if_true, decide_eq_true_eq,
            Option.some.injEq]
          rw [totalSeconds_bounds_iff]
          constructor
          · rintro ⟨h1, h2⟩
            exact ⟨dl, rfl, trivial, h1, h2⟩
          · rintro ⟨dl', hdl', -, h1, h2⟩
            obtain rfl : dl' = dl := hdl'.symm
            exact ⟨h1, h2⟩
  refine ⟨core, ?_, ?_, ?_, ?_⟩
  · intro hdl
    rw [Bool.eq_false_iff]
    intro hcon
    obtain ⟨dl, hdl', -, h1, -⟩ := core.mp hcon
    rw [hdl] at hdl'
    obtain rfl : dl = now := by
      injection hdl' with h
      exact h.symm
    omega
  · intro hh hdl hst
    exact core.mpr ⟨now + hours * usPerHour, hdl, hst, by
      have := Nat.mul_pos hh usPerHour_pos
      omega, le_refl _⟩
  · intro hdl
    unfold is_due_soon
    rw [hdl]
  · intro hst
    unfold is_due_soon
    cases t.deadline with
    | none => rfl
    | some dl => simp [hst]

/-- Witness for C9: boundary instances at `now` = 10:00 UTC on day 100,
`hours = 24` — a deadline exactly 24 h away is due-soon, a deadline equal
to `now` is not. -/
theorem is_due_soon_characterization_witness :
    is_due_soon
      ⟨1, "a", none, Status.new, Priority.medium,
        some (100 * usPerDay + 10 * usPerHour + 24 * usPerHour), 1, 0⟩
      (100 * usPerDay + 10 * usPerHour) 24 = true ∧
    is_due_soon
      ⟨2, "b", none, Status.new, Priority.medium,
        some (100 * usPerDay + 10 * usPerHour), 1, 0⟩
      (100 * usPerDay + 10 * usPerHour) 24 = false := by
  constructor
  · exact (is_due_soon_characterization
      ⟨1, "a", none, Status.new, Priority.medium,
        some (100 * usPerDay + 10 * usPerHour + 24 * usPerHour), 1, 0⟩
      (100 * usPerDay + 10 * usPerHour) 24).2.2.1 (by norm_num) rfl (by decide)
  · exact (is_due_soon_characterization
      ⟨2, "b", none, Status.new, Priority.medium,
        some (100 * usPerDay + 10 * usPerHour), 1, 0⟩
      (100 * usPerDay + 10 * usPerHour) 24).2.1 rfl

/-- `now.replace(hour=0, minute=0, second=0, microsecond=0)`: start of the
UTC calendar day containing `now`. -/
def todayStart (now : Nat) : Nat :=
  now / usPerDay * usPerDay

/-- `now.replace(hour=23, minute=59, second=59, microsecond=999999)`: last
representable microsecond of the UTC calendar day containing `now`. -/
def todayEnd (now : Nat) : Nat :=
  todayStart now + (usPerDay - 1)

/-- The row filter of the `check_task_deadlines` query
(`src/apps/tasks/tasks.py` lines 20-31): deadline non-null, strictly after
`now`, at most `now + 24h`; exclude rows whose `created_at` and `deadline`
both lie in `[today_start, today_end]`; exclude status Done. -/
def deadlineScanFilter (now : Nat) (t : Task) : Bool :=
  match t.deadline with
  | none => false
  | some dl =>
      (decide (now < dl) && decide (dl ≤ now + 24 * usPerHour))
      && !(decide (todayStart now ≤ t.created_at) && decide (t.created_at ≤ todayEnd now)
            && decide (todayStart now ≤ dl) && decide (dl ≤ todayEnd now))
      && !(t.status == Status.done)

/-- `tasks_due_soon`: the candidate set of one scheduler run over the task
table. -/
def tasksDueSoon (tasks : List Task) (now : Nat) : List Task :=
  tasks.filter (deadlineScanFilter now)

/-- Two instants fall in the same UTC calendar day. -/
def sameCalendarDay (x y : Nat) : Prop :=
  x / usPerDay = y / usPerDay

instance (x y : Nat) : Decidable (sameCalendarDay x y) := by
  unfold sameCalendarDay; infer_instance

theorem usPerDay_pos : 0 < usPerDay := by
  norm_num [usPerDay, usPerHour]

theorem div_eq_iff_mem_interval (D x q : Nat) (hD : 0 < D) :
    (q * D ≤ x ∧ x ≤ q * D + (D - 1)) ↔ x / D = q := by
  constructor
  · rintro ⟨h1, h2⟩
    refine Nat.div_eq_of_lt_le h1 ?_
    rw [Nat.succ_mul]
    omega
  · rintro rfl
    refine ⟨Nat.div_mul_le_self x D, ?_⟩
    have := Nat.lt_div_mul_add (a := x) hD
    omega

/-- An instant lies in `[today_start, today_end]` of `now` exactly when it
falls in the same UTC calendar day as `now`. -/
theorem mem_today_iff_sameCalendarDay (x now : Nat) :
    (todayStart now ≤ x ∧ x ≤ todayEnd now) ↔ sameCalendarDay x now := by
  exact div_eq_iff_mem_interval usPerDay x (now / usPerDay) usPerDay_pos

theorem deadlineScanFilter_eq_true_iff (now : Nat) (t : Task) :
    deadlineScanFilter now t = true ↔
      ∃ dl, t.deadline = some dl ∧ now < dl ∧ dl ≤ now + 24 * usPerHour ∧
        t.status ≠ Status.done ∧
        ¬ (sameCalendarDay t.created_at now ∧ sameCalendarDay dl now) := by
  unfold deadlineScanFilter
  cases hdl : t.deadline with
  | none => simp
  | some dl =>
      have h1 := mem_today_iff_sameCalendarDay t.created_at now
      have h2 := mem_today_iff_sameCalendarDay dl now
      simp only [Bool.and_eq_true, Bool.not_eq_true', Bool.eq_false_iff, ne_eq,
        decide_eq_true_eq, beq_iff_eq, Option.some.injEq]
      constructor
      · rintro ⟨⟨⟨hgt, hle⟩, hnot⟩, hdone⟩
        refine ⟨dl, rfl, hgt, hle, hdone, ?_⟩
        rw [← h1, ← h2]
        tauto
      · rintro ⟨dl', hdl', hgt, hle, hdone, hnot⟩
        obtain rfl : dl' = dl := hdl'.symm
        rw [← h1, ← h2] at hnot
        refine ⟨⟨⟨hgt, hle⟩, ?_⟩, hdone⟩
        tauto

/-- C2: on every scheduler run at `now`, the candidate set of
`check_task_deadlines` consists exactly of the tasks having a non-null
deadline with `now < deadline ≤ now + 24h`, status not Done, and not both
`created_at` and `deadline` in the same UTC calendar day as `now`; with the
four concrete examples of the specification (scan run at 10:00 UTC on
day 100 of the epoch). -/
theorem deadline_scan_candidate_set :
    (∀ (tasks : List Task) (now : Nat) (t : Task),
      t ∈ tasksDueSoon tasks now ↔
        t ∈ tasks ∧ ∃ dl, t.deadline = some dl ∧
          now < dl ∧ dl ≤ now + 24 * usPerHour ∧
          t.status ≠ Status.done ∧
          ¬ (sameCalendarDay t.created_at now ∧ sameCalendarDay dl now)) ∧
    (let now : Nat := 100 * usPerDay + 10 * usPerHour
     (tasksDueSoon [⟨1, "a", none, Status.new, Priority.medium,
         some (now + 23 * usPerHour), 1, now - 240 * usPerHour⟩] now =
       [⟨1, "a", none, Status.new, Priority.medium,
         some (now + 23 * usPerHour), 1, now - 240 * usPerHour⟩]) ∧
     (tasksDueSoon [⟨2, "b", none, Status.new, Priority.medium,
         some (now + 2 * usPerHour), 1, now - 2 * usPerHour⟩] now = []) ∧
     (tasksDueSoon [⟨3, "c", none, Status.new, Priority.medium,
         some (now + 25 * usPerHour), 1, now - 240 * usPerHour⟩] now = []) ∧
     (tasksDueSoon [⟨4, "d", none, Status.done, Priority.medium,
         some (now + 1 * usPerHour), 1, now - 240 * usPerHour⟩] now = [])) := by
  refine ⟨?_, by decide, by decide, by decide, by decide⟩
  intro tasks now t
  unfold tasksDueSoon
  rw [List.mem_filter, deadlineScanFilter_eq_true_iff]

/-- `hours_remaining` of the scan loop (`src/apps/tasks/tasks.py`
lines 39-40): `int(time_remaining.total_seconds() / 3600)`. -/
def hoursRemaining (now dl : Nat) : Int :=
  pythonInt (totalSeconds ((dl : Int) - (now : Int)) / 3600)

theorem floor_micro_div_hour (d : Nat) :
    ⌊totalSeconds (d : Int) / 3600⌋ = ((d / usPerHour : Nat) : Int) := by
  unfold totalSeconds
  rw [div_div]
  rw [show ((1000000 : ℚ) * 3600) = ((3600000000 : Nat) : ℚ) by norm_num]
  rw [Rat.floor_intCast_div_natCast (d : Int) 3600000000]
  rw [usPerHour_eq]
  push_cast
  rfl

theorem hoursRemaining_eq_div (now dl : Nat) (h : now ≤ dl) :
    hoursRemaining now dl = ((dl - now) / usPerHour : Nat) := by
  unfold hoursRemaining pythonInt
  rw [show (dl : Int) - (now : Int) = ((dl - now : Nat) : Int) by omega]
  rw [if_pos (by unfold totalSeconds; positivity)]
  exact floor_micro_div_hour (dl - now)

/-- C8: for every candidate task of a deadline-scan run (so `now < dl`),
`int(time_remaining.total_seconds() / 3600)` equals the floor of the exact
number of seconds remaining divided by 3600 — equivalently, floor division
of the remaining microseconds by one hour — and a deadline 3h30m away
yields 3. -/
theorem scan_hours_remaining_is_floor
    (tasks : List Task) (now : Nat) (t : Task) (dl : Nat)
    (hmem : t ∈ tasksDueSoon tasks now) (hdl : t.deadline = some dl) :
    hoursRemaining now dl = ⌊totalSeconds ((dl : Int) - (now : Int)) / 3600⌋ ∧
    hoursRemaining now dl = ((dl - now) / usPerHour : Nat) ∧
    (∀ n : Nat, hoursRemaining n (n + 3 * usPerHour + 30 * 60 * 1000000) = 3) := by
  have hle : now ≤ dl := by
    rw [tasksDueSoon, List.mem_filter] at hmem
    obtain ⟨dl', hdl', hgt, -⟩ := (deadlineScanFilter_eq_true_iff now t).mp hmem.2
    obtain rfl : dl' = dl := by
      rw [hdl] at hdl'
      injection hdl' with h
      exact h.symm
    exact Nat.le_of_lt hgt
  refine ⟨?_, hoursRemaining_eq_div now dl hle, ?_⟩
  · unfold hoursRemaining pythonInt
    rw [if_pos]
    unfold totalSeconds
    have : (0 : ℚ) ≤ (((dl : Int) - (now : Int) : Int) : ℚ) := by
      push_cast
      have : (now : ℚ) ≤ (dl : ℚ) := by exact_mod_cast hle
      linarith
    positivity
  · intro n
    rw [hoursRemaining_eq_div n _ (by omega)]
    norm_num [usPerHour]
    rw [show n + 3 * 3600000000 + 1800000000 - n = 12600000000 by omega]
    norm_num

/-- Witness for C8: a task due 3h30m after a scan run at 10:00 UTC on
day 100 is a candidate, and its reported hours remaining is 3. -/
theorem scan_hours_remaining_is_floor_witness :
    hoursRemaining (100 * usPerDay + 10 * usPerHour)
      (100 * usPerDay + 10 * usPerHour + 3 * usPerHour + 30 * 60 * 1000000) = 3 := by
  have h := scan_hours_remaining_is_floor
    [⟨1, "a", none, Status.new, Priority.medium,
      some (100 * usPerDay + 10 * usPerHour + 3 * usPerHour + 30 * 60 * 1000000), 1, 0⟩]
    (100 * usPerDay + 10 * usPerHour)
    ⟨1, "a", none, Status.new, Priority.medium,
      some (100 * usPerDay + 10 * usPerHour + 3 * usPerHour + 30 * 60 * 1000000), 1, 0⟩
    (100 * usPerDay + 10 * usPerHour + 3 * usPerHour + 30 * 60 * 1000000)
    (by decide) rfl
  exact h.2.2 (100 * usPerDay + 10 * usPerHour)

/-! ## Users: registration and grantee lookup
(`src/apps/users/api/serializers.py`, `src/apps/tasks/api/serializers.py`) -/

/-- ASCII lowercasing of one character — Python `str.lower()` restricted to
the ASCII range occurring in email addresses. -/
def lowerChar (c : Char) : Char :=
  if 65 ≤ c.toNat ∧ c.toNat ≤ 90 then Char.ofNat (c.toNat + 32) else c

/-- Python `str.lower()` on an (ASCII) string. -/
def lowerStr (s : String) : String :=
  String.mk (s.data.map lowerChar)

theorem toNat_ofNat_of_valid {n : Nat} (h : Nat.isValidChar n) :
    (Char.ofNat n).toNat = n := by
  have : Char.ofNat n = Char.ofNatAux n h := by
    unfold Char.ofNat
    exact dif_pos h
  rw [this]
  unfold Char.ofNatAux
  simp [Char.toNat, UInt32.toNat, UInt32.ofNatCore, BitVec.ofNat]

theorem lowerChar_idem (c : Char) : lowerChar (lowerChar c) = lowerChar c := by
  unfold lowerChar
  by_cases h : 65 ≤ c.toNat ∧ c.toNat ≤ 90
  · rw [if_pos h]
    have hv : (Char.ofNat (c.toNat + 32)).toNat = c.toNat + 32 :=
      toNat_ofNat_of_valid (Or.inl (by omega))
    rw [if_neg (by rw [hv]; omega)]
  · rw [if_neg h, if_neg h]

theorem lowerStr_idem (s : String) : lowerStr (lowerStr s) = lowerStr s := by
  unfold lowerStr
  simp [List.map_map, Function.comp_def, lowerChar_idem]

/-- `UserRegistrationSerializer` (`src/apps/users/api/serializers.py`):
`validate_email` rejects the registration when a user with the lowercased
email already exists and otherwise returns the lowercased email, which
`create` stores via `User.objects.create_user`.  `AbstractBaseUser`
supplies `is_active = True`. -/
def registerUser (users : List User) (email : String) (newId : Nat) : List User :=
  if users.any (fun u => u.email == lowerStr email) then users
  else ⟨newId, lowerStr email, true⟩ :: users

/-- User stores reachable through the registration endpoint, starting
empty. -/
def applyRegistrations (regs : List (String × Nat)) : List User :=
  regs.foldl (fun users r => registerUser users r.1 r.2) []

/-- Invariant of reachable user stores: every stored email is already
lowercase, and every user is active. -/
def UserStoreInv (users : List User) : Prop :=
  ∀ u ∈ users, lowerStr u.email = u.email ∧ u.is_active = true

theorem userStoreInv_registerUser (users : List User) (email : String) (newId : Nat)
    (h : UserStoreInv users) : UserStoreInv (registerUser users email newId) := by
  unfold registerUser
  split
  · exact h
  · intro u hu
    rcases List.mem_cons.mp hu with rfl | hu
    · exact ⟨lowerStr_idem email, rfl⟩
    · exact h u hu

theorem userStoreInv_applyRegistrations (regs : List (String × Nat)) :
    UserStoreInv (applyRegistrations regs) := by
  unfold applyRegistrations
  suffices h : ∀ users, UserStoreInv users →
      UserStoreInv (regs.foldl (fun users r => registerUser users r.1 r.2) users) by
    exact h [] (by intro u hu; cases hu)
  induction regs with
  | nil => intro users h; exact h
  | cons r rest ih =>
      intro users h
      exact ih _ (userStoreInv_registerUser users r.1 r.2 h)

/-- `TaskShareCreateSerializer.validate_shared_with_email`
(`src/apps/tasks/api/serializers.py` lines 107-115):
`User.objects.get(email=value.lower())`; absence raises a validation error
(the spec's `NotFound` failure), success returns the lowercased email. -/
def validate_shared_with_email (users : List User) (value : String) : Option String :=
  match users.find? (fun u => u.email == lowerStr value) with
  | some _ => some (lowerStr value)
  | none => none

/-- C5: in every reachable user store, the grantee-email validation fails
exactly when no active user's email matches the given email
case-insensitively.  (In this code base every stored user is active, and
stored emails are lowercase, so the single exact lookup on the lowercased
input realizes the case-insensitive active-user match.) -/
theorem grantee_lookup_fails_iff_no_active_match
    (users : List User) (value : String) (hinv : UserStoreInv users) :
    validate_shared_with_email users value = none ↔
      ¬ ∃ u ∈ users, u.is_active = true ∧ lowerStr u.email = lowerStr value := by
  unfold validate_shared_with_email
  cases hf : users.find? (fun u => u.email == lowerStr value) with
  | some u =>
      simp only [reduceCtorEq, false_iff, not_not]
      have hu := List.mem_of_find?_eq_some hf
      have hp := List.find?_some hf
      refine ⟨u, hu, (hinv u hu).2, ?_⟩
      rw [(hinv u hu).1, beq_iff_eq.mp hp]
  | none =>
      simp only [true_iff]
      rintro ⟨u, hu, -, hmatch⟩
      have := List.find?_eq_none.mp hf u hu
      rw [(hinv u hu).1] at hmatch
      simp [hmatch] at this

/-- Witness for C5: in the store reached by registering `Bob@Example.com`
(stored as `bob@example.com`), validation succeeds for `BOB@EXAMPLE.COM`
and fails for an unknown address. -/
theorem grantee_lookup_fails_iff_no_active_match_witness :
    (validate_shared_with_email (applyRegistrations [("Bob@Example.com", 1)])
      "BOB@EXAMPLE.COM" ≠ none) ∧
    (validate_shared_with_email (applyRegistrations [("Bob@Example.com", 1)])
      "carol@example.com" = none) := by
  constructor
  · have h := grantee_lookup_fails_iff_no_active_match
      (applyRegistrations [("Bob@Example.com", 1)]) "BOB@EXAMPLE.COM"
      (userStoreInv_applyRegistrations _)
    intro hc
    exact (h.mp hc) ⟨⟨1, "bob@example.com", true⟩, by decide, rfl, by decide⟩
  · have h := grantee_lookup_fails_iff_no_active_match
      (applyRegistrations [("Bob@Example.com", 1)]) "carol@example.com"
      (userStoreInv_applyRegistrations _)
    refine h.mpr ?_
    rintro ⟨u, hu, -, hmatch⟩
    have hstore : applyRegistrations [("Bob@Example.com", 1)] =
        [⟨1, "bob@example.com", true⟩] := by decide
    rw [hstore] at hu
    obtain rfl := List.mem_singleton.mp hu
    revert hmatch
    decide

/-! ## Sharing operation (`src/apps/tasks/api/views.py` `share`,
`revoke_share`) -/

/-- `TaskShare.objects.update_or_create(task=..., shared_with=...,
defaults={'permission': permission})`: when a row with the key exists,
update its permission (`shared_at` is `auto_now_add`, so it keeps its
creation instant); otherwise insert a fresh row.  Returns the new table,
the affected row, and Django's `created` flag. -/
def update_or_create (shares : List TaskShare) (taskId userId : Nat)
    (p : SharePermission) (now : Nat) : List TaskShare × TaskShare × Bool :=
  match findShare shares taskId userId with
  | some s =>
      (shares.map (fun r =>
          if r.task == taskId && r.shared_with == userId then
            { r with permission := p }
          else r),
        { s with permission := p }, false)
  | none =>
      (⟨taskId, userId, p, now⟩ :: shares, ⟨taskId, userId, p, now⟩, true)

/-- Outcome of the `share` action, with the HTTP status the view answers:
`validationFailed` (400, grantee email matches no user), `selfShare`
(400, the spec's `InvalidOperation`), `forbidden` (403, requester is not
the owner), or `ok` with 201 (created) / 200 (updated) and the share row. -/
inductive ShareResponse where
  | validationFailed
  | selfShare
  | forbidden
  | ok (statusCode : Nat) (share : TaskShare)
deriving DecidableEq, Repr

/-- The `share` action (`src/apps/tasks/api/views.py` lines 307-347)
including its `CanShareTask` object permission: validate the grantee email
(serializer), re-fetch the grantee by the lowercased email, reject sharing
with oneself, else upsert and answer 201 when created, 200 when updated. -/
def shareEndpoint (users : List User) (shares : List TaskShare) (t : Task)
    (requesterId : Nat) (email : String) (p : SharePermission) (now : Nat) :
    ShareResponse × List TaskShare :=
  if canShareTask requesterId t then
    match validate_shared_with_email users email with
    | none => (.validationFailed, shares)
    | some lowered =>
        match users.find? (fun u => u.email == lowered) with
        | none => (.validationFailed, shares)
        | some grantee =>
            if grantee.id == requesterId then
              (.selfShare, shares)
            else
              let r := update_or_create shares t.id grantee.id p now
              (.ok (if r.2.2 then 201 else 200) r.2.1, r.1)
  else (.forbidden, shares)

/-- `revoke_share` (`src/apps/tasks/api/views.py` lines 411-421) after its
`CanShareTask` gate: delete the share row for (task, user), or 404 when
absent (`none`). -/
def revokeShare (shares : List TaskShare) (taskId userId : Nat) :
    Option (List TaskShare) :=
  match findShare shares taskId userId with
  | some _ =>
      some (shares.filter (fun s => !(s.task == taskId && s.shared_with == userId)))
  | none => none

/-- One state-changing operation on the share table. -/
inductive ShareOp where
  | grant (t : Task) (requesterId : Nat) (email : String) (p : SharePermission) (now : Nat)
  | revoke (taskId userId : Nat)

/-- Apply one operation; a failed revocation (404) leaves the table as is. -/
def applyShareOp (users : List User) (shares : List TaskShare) :
    ShareOp → List TaskShare
  | .grant t req email p now => (shareEndpoint users shares t req email p now).2
  | .revoke taskId userId =>
      match revokeShare shares taskId userId with
      | some shares' => shares'
      | none => shares

/-- Share states reachable by a sequence of grants and revocations from the
empty table. -/
def applyShareOps (users : List User) (ops : List ShareOp) : List TaskShare :=
  ops.foldl (applyShareOp users) []

/-- The `unique_together = [['task', 'shared_with']]` invariant
(`src/apps/tasks/models.py` lines 93-102): no two rows share a
(task, grantee) key. -/
def ShareKeyUnique (shares : List TaskShare) : Prop :=
  List.Pairwise (fun a b => ¬ (a.task = b.task ∧ a.shared_with = b.shared_with)) shares

theorem shareKeyUnique_update_or_create (shares : List TaskShare)
    (taskId userId : Nat) (p : SharePermission) (now : Nat)
    (h : ShareKeyUnique shares) :
    ShareKeyUnique (update_or_create shares taskId userId p now).1 := by
  unfold update_or_create
  cases hf : findShare shares taskId userId with
  | some s =>
      refine List.Pairwise.map _ ?_ h
      intro a b hab
      intro hcon
      apply hab
      revert hcon
      split <;> split <;> simp_all
  | none =>
      refine List.Pairwise.cons ?_ h
      intro b hb hcon
      have := List.find?_eq_none.mp hf b hb
      simp only [Bool.and_eq_true, beq_iff_eq] at this
      exact this ⟨hcon.1.symm, hcon.2.symm⟩

/-- Updating the permission of the head row (whose key matches) leaves the
remaining rows — none of which match the key — untouched. -/
theorem map_update_key (shares : List TaskShare) (tid uid : Nat)
    (p : SharePermission)
    (hmiss : ∀ r ∈ shares, ¬ (r.task == tid && r.shared_with == uid) = true)
    (row : TaskShare) (hrow : row.task = tid ∧ row.shared_with = uid) :
    (row :: shares).map (fun r =>
        if r.task == tid && r.shared_with == uid then
          { r with permission := p }
        else r) =
      { row with permission := p } :: shares := by
  rw [List.map_cons]
  congr 1
  · simp [hrow.1, hrow.2]
  · conv_rhs => rw [← List.map_id shares]
    exact List.map_congr_left (fun r hr => by rw [if_neg (hmiss r hr)]; rfl)

theorem shareKeyUnique_applyShareOp (users : List User) (shares : List TaskShare)
    (op : ShareOp) (h : ShareKeyUnique shares) :
    ShareKeyUnique (applyShareOp users shares op) := by
  cases op with
  | grant t req email p now =>
      show ShareKeyUnique (shareEndpoint users shares t req email p now).2
      unfold shareEndpoint
      by_cases hcs : canShareTask req t = true
      · rw [if_pos hcs]
        cases validate_shared_with_email users email with
        | none => exact h
        | some lowered =>
            dsimp only
            cases List.find? (fun u => u.email == lowered) users with
            | none => exact h
            | some grantee =>
                dsimp only
                by_cases hid : (grantee.id == req) = true
                · rw [if_pos hid]
                  exact h
                · rw [if_neg hid]
                  exact shareKeyUnique_update_or_create shares t.id grantee.id p now h
      · rw [if_neg hcs]
        exact h
  | revoke taskId userId =>
      show ShareKeyUnique (match revokeShare shares taskId userId with
        | some shares' => shares'
        | none => shares)
      unfold revokeShare
      cases hf : findShare shares taskId userId with
      | some s => exact List.Pairwise.filter _ h
      | none => exact h

/-- C3: the grant operation upserts.  Starting from any share table with no
row for (task, grantee) — `g` a user whose (lowercased) email resolves and
who is not the owner — two consecutive grants by the owner with permissions
`p₁` then `p₂` answer 201 (created) then 200 (updated), and leave exactly
one row for the (task, grantee) key, carrying `p₂` (and the grant instant
of the first call, since `shared_at` is `auto_now_add`).  Moreover every
share state reachable by any sequence of grants and revocations satisfies
the at-most-one-row-per-key invariant. -/
theorem grant_share_upserts (users : List User) (shares : List TaskShare)
    (t : Task) (g : User) (email : String) (p₁ p₂ : SharePermission)
    (now₁ now₂ : Nat)
    (hg : users.find? (fun u => u.email == lowerStr email) = some g)
    (hne : g.id ≠ t.owner)
    (hnew : findShare shares t.id g.id = none) :
    (shareEndpoint users shares t t.owner email p₁ now₁).1 =
      ShareResponse.ok 201 ⟨t.id, g.id, p₁, now₁⟩ ∧
    (shareEndpoint users
        (shareEndpoint users shares t t.owner email p₁ now₁).2
        t t.owner email p₂ now₂).1 =
      ShareResponse.ok 200 ⟨t.id, g.id, p₂, now₁⟩ ∧
    ((shareEndpoint users
        (shareEndpoint users shares t t.owner email p₁ now₁).2
        t t.owner email p₂ now₂).2.filter
      (fun s => s.task == t.id && s.shared_with == g.id)) =
      [⟨t.id, g.id, p₂, now₁⟩] ∧
    (∀ ops : List ShareOp, ShareKeyUnique (applyShareOps users ops)) := by
  have hmiss : ∀ r ∈ shares, ¬ (r.task == t.id && r.shared_with == g.id) = true := by
    intro r hr
    have := List.find?_eq_none.mp hnew r hr
    simp_all
  have hval : validate_shared_with_email users email = some (lowerStr email) := by
    unfold validate_shared_with_email
    rw [hg]
  have step1 : shareEndpoint users shares t t.owner email p₁ now₁ =
      (ShareResponse.ok 201 ⟨t.id, g.id, p₁, now₁⟩,
        ⟨t.id, g.id, p₁, now₁⟩ :: shares) := by
    unfold shareEndpoint
    rw [if_pos (by simp [canShareTask]), hval]
    simp only [hg]
    rw [if_neg (by simp [hne])]
    unfold update_or_create
    rw [hnew]
    rfl
  have step2 : shareEndpoint users (⟨t.id, g.id, p₁, now₁⟩ :: shares)
      t t.owner email p₂ now₂ =
      (ShareResponse.ok 200 ⟨t.id, g.id, p₂, now₁⟩,
        ⟨t.id, g.id, p₂, now₁⟩ :: shares) := by
    unfold shareEndpoint
    rw [if_pos (by simp [canShareTask]), hval]
    simp only [hg]
    rw [if_neg (by simp [hne])]
    unfold update_or_create
    have hfind2 : findShare (⟨t.id, g.id, p₁, now₁⟩ :: shares) t.id g.id =
        some ⟨t.id, g.id, p₁, now₁⟩ := by
      unfold findShare
      simp [List.find?_cons]
    rw [hfind2]
    dsimp only
    rw [map_update_key shares t.id g.id p₂ hmiss ⟨t.id, g.id, p₁, now₁⟩ ⟨rfl, rfl⟩]
    rfl
  refine ⟨by rw [step1], by rw [step1, step2], ?_, ?_⟩
  · rw [step1, step2]
    simp only [List.filter_cons]
    rw [if_pos (by simp)]
    rw [List.filter_eq_nil_iff.mpr hmiss]
  · intro ops
    unfold applyShareOps
    suffices h : ∀ init, ShareKeyUnique init →
        ShareKeyUnique (ops.foldl (applyShareOp users) init) by
      exact h [] List.Pairwise.nil
    induction ops with
    | nil => intro init h; exact h
    | cons op rest ih =>
        intro init h
        exact ih _ (shareKeyUnique_applyShareOp users init op h)

/-- Witness for C3: owner 1 of task 1 grants to `bob@example.com` (user 2)
view then edit; the runs answer 201 then 200 and leave one row with
permission edit. -/
theorem grant_share_upserts_witness :
    (shareEndpoint [⟨2, "bob@example.com", true⟩] []
      ⟨1, "t", none, Status.new, Priority.medium, none, 1, 0⟩ 1
      "bob@example.com" SharePermission.view 10).1 =
      ShareResponse.ok 201 ⟨1, 2, SharePermission.view, 10⟩ ∧
    (shareEndpoint [⟨2, "bob@example.com", true⟩]
      (shareEndpoint [⟨2, "bob@example.com", true⟩] []
        ⟨1, "t", none, Status.new, Priority.medium, none, 1, 0⟩ 1
        "bob@example.com" SharePermission.view 10).2
      ⟨1, "t", none, Status.new, Priority.medium, none, 1, 0⟩ 1
      "bob@example.com" SharePermission.edit 20).1 =
      ShareResponse.ok 200 ⟨1, 2, SharePermission.edit, 10⟩ := by
  have h := grant_share_upserts [⟨2, "bob@example.com", true⟩] []
    ⟨1, "t", none, Status.new, Priority.medium, none, 1, 0⟩
    ⟨2, "bob@example.com", true⟩ "bob@example.com"
    SharePermission.view SharePermission.edit 10 20
    (by decide) (by decide) rfl
  exact ⟨h.1, h.2.1⟩

/-- C6: a grant whose grantee email resolves to the task's owner is always
rejected as a self-share — for every permission value and every share
state — and the share table is unchanged. -/
theorem self_share_always_rejected (users : List User) (shares : List TaskShare)
    (t : Task) (g : User) (email : String) (p : SharePermission) (now : Nat)
    (hg : users.find? (fun u => u.email == lowerStr email) = some g)
    (howner : g.id = t.owner) :
    shareEndpoint users shares t t.owner email p now =
      (ShareResponse.selfShare, shares) := by
  have hval : validate_shared_with_email users email = some (lowerStr email) := by
    unfold validate_shared_with_email
    rw [hg]
  unfold shareEndpoint
  rw [if_pos (by simp [canShareTask]), hval]
  simp only [hg]
  rw [if_pos (by simp [howner])]

/-- Witness for C6: owner 1 of task 1 tries to share with their own email;
the call is rejected for both permission values and the table stays empty. -/
theorem self_share_always_rejected_witness :
    shareEndpoint [⟨1, "alice@example.com", true⟩] []
      ⟨1, "t", none, Status.new, Priority.medium, none, 1, 0⟩ 1
      "alice@example.com" SharePermission.view 10 =
      (ShareResponse.selfShare, []) ∧
    shareEndpoint [⟨1, "alice@example.com", true⟩] []
      ⟨1, "t", none, Status.new, Priority.medium, none, 1, 0⟩ 1
      "alice@example.com" SharePermission.edit 10 =
      (ShareResponse.selfShare, []) := by
  constructor
  · exact self_share_always_rejected [⟨1, "alice@example.com", true⟩] []
      ⟨1, "t", none, Status.new, Priority.medium, none, 1, 0⟩
      ⟨1, "alice@example.com", true⟩ "alice@example.com"
      SharePermission.view 10 (by decide) rfl
  · exact self_share_always_rejected [⟨1, "alice@example.com", true⟩] []
      ⟨1, "t", none, Status.new, Priority.medium, none, 1, 0⟩
      ⟨1, "alice@example.com", true⟩ "alice@example.com"
      SharePermission.edit 10 (by decide) rfl

/-! ## Visibility (`src/apps/tasks/api/views.py` `get_queryset`) -/

/-- The shares joined to one task by `Q(shares__shared_with=user)`'s LEFT
OUTER JOIN: one entry per share row of the task, or a single null entry
when the task has none. -/
def joinedShares (shares : List TaskShare) (t : Task) : List (Option TaskShare) :=
  match shares.filter (fun s => s.task == t.id) with
  | [] => [none]
  | s :: rest => (s :: rest).map some

/-- The rows produced by `Task.objects.filter(Q(owner=user) |
Q(shares__shared_with=user))` before `.distinct()`: one task row per joined
share satisfying the disjunction, so a task can appear several times. -/
def visibleTaskRows (tasks : List Task) (shares : List TaskShare)
    (userId : Nat) : List Task :=
  tasks.flatMap (fun t =>
    ((joinedShares shares t).filter (fun s? =>
        t.owner == userId ||
          (match s? with
           | some s => s.shared_with == userId
           | none => false))).map (fun _ => t))

/-- `SELECT DISTINCT` over rows keyed by the primary key: keep the first
row with each id. -/
def distinctById : List Task → List Task
  | [] => []
  | t :: rest => t :: distinctById (rest.filter (fun u => u.id != t.id))
termination_by l => l.length
decreasing_by
  simp only [List.length_cons]
  exact Nat.lt_succ_of_le (List.length_filter_le _ _)

/-- `get_queryset` (`src/apps/tasks/api/views.py` lines 38-50): the task
set visible to a principal. -/
def visibleTasks (tasks : List Task) (shares : List TaskShare)
    (userId : Nat) : List Task :=
  distinctById (visibleTaskRows tasks shares userId)

theorem joinedShares_ne_nil (shares : List TaskShare) (t : Task) :
    joinedShares shares t ≠ [] := by
  unfold joinedShares
  cases shares.filter (fun s => s.task == t.id) with
  | nil => simp
  | cons a rest => simp

theorem mem_joinedShares_some (shares : List TaskShare) (t : Task) (s : TaskShare) :
    some s ∈ joinedShares shares t ↔ s ∈ shares ∧ s.task = t.id := by
  have key : some s ∈ joinedShares shares t ↔
      s ∈ shares.filter (fun s => s.task == t.id) := by
    unfold joinedShares
    cases hf : shares.filter (fun s => s.task == t.id) with
    | nil => simp
    | cons a rest => simp
  rw [key, List.mem_filter]
  simp

theorem mem_visibleTaskRows (tasks : List Task) (shares : List TaskShare)
    (userId : Nat) (x : Task) :
    x ∈ visibleTaskRows tasks shares userId ↔
      x ∈ tasks ∧ (x.owner = userId ∨
        ∃ s ∈ shares, s.task = x.id ∧ s.shared_with = userId) := by
  unfold visibleTaskRows
  rw [List.mem_flatMap]
  constructor
  · rintro ⟨t, ht, hx⟩
    obtain ⟨s?, hs?, rfl⟩ := List.mem_map.mp hx
    have hfil := List.mem_filter.mp hs?
    refine ⟨ht, ?_⟩
    rcases Bool.or_eq_true_iff.mp hfil.2 with howner | hshare
    · exact Or.inl (by simpa using howner)
    · cases s? with
      | none => simp at hshare
      | some s =>
          have := (mem_joinedShares_some shares t s).mp hfil.1
          exact Or.inr ⟨s, this.1, this.2, by simpa using hshare⟩
  · rintro ⟨hx, hcond⟩
    refine ⟨x, hx, List.mem_map.mpr ?_⟩
    rcases hcond with howner | ⟨s, hs, hid, hgrantee⟩
    · obtain ⟨e, he⟩ := List.exists_mem_of_ne_nil _ (joinedShares_ne_nil shares x)
      exact ⟨e, List.mem_filter.mpr ⟨he, by simp [howner]⟩, rfl⟩
    · refine ⟨some s, List.mem_filter.mpr
        ⟨(mem_joinedShares_some shares x s).mpr ⟨hs, hid⟩, ?_⟩, rfl⟩
      simp [hgrantee]

theorem mem_of_mem_distinctById (l : List Task) (x : Task) :
    x ∈ distinctById l → x ∈ l := by
  induction l using distinctById.induct with
  | case1 =>
      intro h
      simp [distinctById] at h
  | case2 t rest ih =>
      intro h
      rw [distinctById] at h
      rcases List.mem_cons.mp h with rfl | h
      · exact List.mem_cons_self _ _
      · exact List.mem_cons_of_mem _ (List.mem_of_mem_filter (ih h))

theorem mem_distinctById (l : List Task) (x : Task) :
    (∀ a ∈ l, ∀ b ∈ l, a.id = b.id → a = b) →
    (x ∈ distinctById l ↔ x ∈ l) := by
  induction l using distinctById.induct with
  | case1 =>
      intro _
      simp [distinctById]
  | case2 t rest ih =>
      intro hinj
      refine ⟨mem_of_mem_distinctById _ x, ?_⟩
      intro h
      rw [distinctById]
      rcases List.mem_cons.mp h with rfl | h
      · exact List.mem_cons_self _ _
      · by_cases hid : x.id = t.id
        · have : x = t := hinj x (List.mem_cons_of_mem _ h) t
            (List.mem_cons_self _ _) hid
          rw [this]
          exact List.mem_cons_self _ _
        · refine List.mem_cons_of_mem _ ((ih ?_).mpr ?_)
          · intro a ha b hb
            exact hinj a (List.mem_cons_of_mem _ (List.mem_of_mem_filter ha))
              b (List.mem_cons_of_mem _ (List.mem_of_mem_filter hb))
          · exact List.mem_filter.mpr ⟨h, by simp [hid]⟩

theorem nodup_ids_distinctById (l : List Task) :
    ((distinctById l).map Task.id).Nodup := by
  induction l using distinctById.induct with
  | case1 => simp [distinctById]
  | case2 t rest ih =>
      rw [distinctById, List.map_cons]
      refine List.Nodup.cons ?_ ih
      intro hmem
      obtain ⟨x, hx, hxid⟩ := List.mem_map.mp hmem
      have hxf := mem_of_mem_distinctById _ x hx
      have := List.mem_filter.mp hxf
      simp only [bne_iff_ne, ne_eq, decide_eq_true_eq] at this
      exact this.2 hxid

/-- C7: for every principal, the visible-task set is exactly the union of
the tasks they own and the tasks shared with them, and — although the
OR-filter's join can yield the same task several times — `.distinct()`
makes every task id appear at most once.  The hypothesis states that the
task table has unique primary keys. -/
theorem visible_tasks_is_union_without_duplicates
    (tasks : List Task) (shares : List TaskShare) (userId : Nat)
    (hids : ∀ a ∈ tasks, ∀ b ∈ tasks, a.id = b.id → a = b) :
    (∀ x, x ∈ visibleTasks tasks shares userId ↔
      x ∈ tasks ∧ (x.owner = userId ∨
        ∃ s ∈ shares, s.task = x.id ∧ s.shared_with = userId)) ∧
    ((visibleTasks tasks shares userId).map Task.id).Nodup := by
  have hrows : ∀ a ∈ visibleTaskRows tasks shares userId,
      ∀ b ∈ visibleTaskRows tasks shares userId, a.id = b.id → a = b := by
    intro a ha b hb
    exact hids a ((mem_visibleTaskRows tasks shares userId a).mp ha).1
      b ((mem_visibleTaskRows tasks shares userId b).mp hb).1
  constructor
  · intro x
    unfold visibleTasks
    rw [mem_distinctById _ x hrows, mem_visibleTaskRows]
  · exact nodup_ids_distinctById _

/-- Witness for C7: user 1 owns task 1, which is shared with users 2 and 3;
the OR-join yields two rows for task 1 when user 1 lists tasks, yet the
visible set is `[task 1]` with no duplicate id, and membership matches the
union characterization. -/
theorem visible_tasks_is_union_without_duplicates_witness :
    visibleTasks
      [⟨1, "t", none, Status.new, Priority.medium, none, 1, 0⟩]
      [⟨1, 2, SharePermission.view, 0⟩, ⟨1, 3, SharePermission.edit, 0⟩] 1 =
      [⟨1, "t", none, Status.new, Priority.medium, none, 1, 0⟩] ∧
    ((visibleTasks
      [⟨1, "t", none, Status.new, Priority.medium, none, 1, 0⟩]
      [⟨1, 2, SharePermission.view, 0⟩, ⟨1, 3, SharePermission.edit, 0⟩] 1).map
        Task.id).Nodup := by
  constructor
  · simp [visibleTasks, visibleTaskRows, joinedShares, distinctById]
  · exact (visible_tasks_is_union_without_duplicates
      [⟨1, "t", none, Status.new, Priority.medium, none, 1, 0⟩]
      [⟨1, 2, SharePermission.view, 0⟩, ⟨1, 3, SharePermission.edit, 0⟩] 1
      (by decide)).2

end TaskManager
